import Mathlib

/-!
Shallow embedding of the region-growing controller in
src/diluvian/regions.py (class DenseRegion), together with proofs that
settle the specification claims about it.

Modelling conventions:
* A 3-d numpy array of floats is embedded as a total function from
  integer coordinates to values; the shape is carried separately where
  the code needs it.
* The cumulative mask stores Option values: none plays the role of the
  NaN unknown marker.  All numpy comparisons against NaN are false,
  which the per-voxel definitions reproduce explicitly.
* Float arithmetic is embedded as exact rational arithmetic.
* Queue.PriorityQueue is embedded as a list from which popMin removes
  the least entry under the Python 2 tuple order on
  (priority, position): the None priority of the seed entry sorts below
  every number, and equal numeric priorities fall back to the
  lexicographic order on the position tuple.
* block_size is modelled as one scalar edge length (cubic blocks), as
  the spec describes the blocks.
* The enq_log and processed fields are observation-only instrumentation
  (they record every position ever put on the queue, and the number of
  positions ever dequeued); no behaviour reads them.
-/

namespace Diluvian

/-- Integer voxel / lattice coordinate triple. -/
abbrev Vec3 : Type := ℤ × ℤ × ℤ

/-- Componentwise scalar multiplication, as in numpy pos * MOVE_DELTA. -/
def vscale (c : ℤ) (v : Vec3) : Vec3 := (c * v.1, c * v.2.1, c * v.2.2)

/-- Componentwise floor division, as in numpy np.floor_divide. -/
def vfdiv (v : Vec3) (c : ℤ) : Vec3 := (v.1.fdiv c, v.2.1.fdiv c, v.2.2.fdiv c)

/-- The slice of CONFIG.model that DenseRegion reads. -/
structure Config where
  blockSize : ℕ
  vTrue : ℚ
  vFalse : ℚ
  tMove : ℚ

/-- MOVE_DELTA = (block_size - 1) / 4 (regions.py line 18, floor division). -/
def Config.moveDelta (cfg : Config) : ℕ := (cfg.blockSize - 1) / 4

/-- vox_to_pos (line 44-45): floor-divide a voxel by MOVE_DELTA. -/
def vox_to_pos (d : ℕ) (v : Vec3) : Vec3 := vfdiv v (d : ℤ)

/-- pos_to_vox (line 47-48): multiply a lattice position by MOVE_DELTA. -/
def pos_to_vox (d : ℕ) (p : Vec3) : Vec3 := vscale (d : ℤ) p

/-- A pending queue entry: (priority, position).  The priority none is
the Python None used for the seed entry, which sorts below every
number in Python 2. -/
abbrev Entry : Type := Option ℚ × Vec3

/-- Lexicographic order on position triples (Python 2 tuple order). -/
def lexLe3 (u v : Vec3) : Bool :=
  decide (u.1 < v.1) ||
    (decide (u.1 = v.1) &&
      (decide (u.2.1 < v.2.1) ||
        (decide (u.2.1 = v.2.1) && decide (u.2.2 ≤ v.2.2))))

/-- Python 2 order on (priority, position) entries. -/
def entryLe (e f : Entry) : Bool :=
  match e.1, f.1 with
  | none, _ => true
  | some _, none => false
  | some a, some b => decide (a < b) || (decide (a = b) && lexLe3 e.2 f.2)

/-- Remove the least entry of the queue (Queue.PriorityQueue.get).
Among equal entries the earliest is taken; entryLe is total, so this
pops exactly the heap minimum. -/
def popMin : List Entry → Option (Entry × List Entry)
  | [] => none
  | e :: es =>
    match popMin es with
    | none => some (e, [])
    | some (m, rest) => if entryLe e m then some (e, es) else some (m, e :: rest)

/-- The DenseRegion object state (regions.py lines 16-37). -/
structure DenseRegion where
  MOVE_DELTA : ℕ
  image : Vec3 → ℚ
  bounds : Vec3
  move_bounds : Vec3
  mask : Vec3 → Option ℚ
  target : Option (Vec3 → ℚ)
  bias_against_merge : Bool
  move_based_on_new_mask : Bool
  seed_pos : Vec3
  queue : List Entry
  visited : List Vec3
  enq_log : List Vec3
  processed : ℕ

/-- The DenseRegion constructor (lines 17-37).  mask none means the
fresh all-NaN mask; seed none means the default centre seed.  The seed
voxel is set to v_true and the seed entry (None, seed) is enqueued;
note that the constructor does not add the seed to the visited set. -/
def mkDenseRegion (cfg : Config) (image : Vec3 → ℚ) (bounds : Vec3)
    (target : Option (Vec3 → ℚ)) (seedOpt : Option Vec3)
    (maskOpt : Option (Vec3 → Option ℚ)) : DenseRegion :=
  let d : ℕ := cfg.moveDelta
  let mb : Vec3 := vox_to_pos d bounds - (1, 1, 1)
  let mask0 : Vec3 → Option ℚ := maskOpt.getD (fun _ => none)
  let seed : Vec3 := seedOpt.getD (vfdiv mb 2 + (1, 1, 1))
  { MOVE_DELTA := d
    image := image
    bounds := bounds
    move_bounds := mb
    mask := fun v => if v = pos_to_vox d seed then some cfg.vTrue else mask0 v
    target := target
    bias_against_merge := false
    move_based_on_new_mask := false
    seed_pos := seed
    queue := [(none, seed)]
    visited := []
    enq_log := [seed]
    processed := 0 }

/-- unfilled_copy (lines 39-42).  The Python function constructs the
copy, sets the two flags on it, and then falls off the end of the
function body without a return statement, so the caller receives None;
the constructed object is discarded.  The embedding returns an Option
to make that observable. -/
def unfilled_copy (cfg : Config) (r : DenseRegion) : Option DenseRegion :=
  let _copy : DenseRegion :=
    { mkDenseRegion cfg r.image r.bounds r.target (some r.seed_pos) none with
      bias_against_merge := r.bias_against_merge
      move_based_on_new_mask := r.move_based_on_new_mask }
  none

/-- The six axis-aligned move directions (lines 53-55, in source order). -/
def movesList : List Vec3 :=
  [(1, 0, 0), (-1, 0, 0), (0, 1, 0), (0, -1, 0), (0, 0, 1), (0, 0, -1)]

/-- The integers lo, lo+1, ..., hi-1. -/
def intRange (lo hi : ℤ) : List ℤ :=
  (List.range (hi - lo).toNat).map (fun n => lo + (n : ℤ))

/-- All lattice points of the half-open box [lo, hi). -/
def boxList (lo hi : Vec3) : List Vec3 :=
  (intRange lo.1 hi.1).flatMap fun x =>
    (intRange lo.2.1 hi.2.1).flatMap fun y =>
      (intRange lo.2.2 hi.2.2).map fun z => (x, y, z)

/-- Maximum of blk over the half-open box [lo, hi) (numpy slice .max()).
All boxes taken in this file are nonempty, so the blk lo seed value of
the fold is itself an element of the box. -/
def boxMax (blk : Vec3 → ℚ) (lo hi : Vec3) : ℚ :=
  ((boxList lo hi).map blk).foldl max (blk lo)

/-- ctr = (shape - 1) / 2 + 1 (line 52, floor division). -/
def ctrOf (s : ℕ) : ℤ := (((s - 1) / 2 : ℕ) : ℤ) + 1

/-- One component of plane_min (line 56). -/
def planeMinC (d ctr m : ℤ) : ℤ := ctr - (-2 * max m 0 + 1) * d

/-- One component of plane_max (line 57). -/
def planeMaxC (d ctr m : ℤ) : ℤ := ctr + (2 * min m 0 + 1) * d + 1

/-- plane_min for a move direction, componentwise over the shape-s block. -/
def planeMin (d s : ℕ) (mv : Vec3) : Vec3 :=
  (planeMinC d (ctrOf s) mv.1, planeMinC d (ctrOf s) mv.2.1,
    planeMinC d (ctrOf s) mv.2.2)

/-- plane_max for a move direction, componentwise over the shape-s block. -/
def planeMax (d s : ℕ) (mv : Vec3) : Vec3 :=
  (planeMaxC d (ctrOf s) mv.1, planeMaxC d (ctrOf s) mv.2.1,
    planeMaxC d (ctrOf s) mv.2.2)

/-- The score get_moves computes for one direction: the maximum of the
block over the slice [plane_min, plane_max) (lines 56-61). -/
def moveScore (d s : ℕ) (blk : Vec3 → ℚ) (mv : Vec3) : ℚ :=
  boxMax blk (planeMin d s mv) (planeMax d s mv)

/-- get_moves (lines 50-62) on a block of edge length s, with the
region MOVE_DELTA d: the six (direction, score) pairs in source
order. -/
def get_moves (d s : ℕ) (blk : Vec3 → ℚ) : List (Vec3 × ℚ) :=
  movesList.map (fun mv => (mv, moveScore d s blk mv))

/-- One half: the 0.5 threshold of the conservative merge policy,
written in a kernel-reducible form. -/
def half : ℚ := mkRat 1 2

/-- Per-voxel effect of the conservative update (lines 70-72).
update_mask = isnan(old) or old greater than 0.5 or new less than old;
where the condition holds the block value replaces the stored one.
none is NaN: every numpy comparison against it is false. -/
def update_voxel (old : Option ℚ) (new : ℚ) : Option ℚ :=
  match old with
  | none => some new
  | some a => if half < a ∨ new < a then some new else old

/-- Membership of the half-open cube of edge s at origin, as a Bool. -/
def inBlockBox (origin : Vec3) (s : ℕ) (v : Vec3) : Bool :=
  decide (origin.1 ≤ v.1) && decide (v.1 < origin.1 + (s : ℤ)) &&
  decide (origin.2.1 ≤ v.2.1) && decide (v.2.1 < origin.2.1 + (s : ℤ)) &&
  decide (origin.2.2 ≤ v.2.2) && decide (v.2.2 < origin.2.2 + (s : ℤ))

/-- The mask field after the merge step of add_mask (lines 66-78):
inside the destination cube the block value is merged (conservatively
or by overwrite), outside it the mask is untouched. -/
def blendMask (cfg : Config) (r : DenseRegion) (mask_block : Vec3 → ℚ)
    (origin : Vec3) : Vec3 → Option ℚ :=
  fun v =>
    if inBlockBox origin cfg.blockSize v then
      if r.bias_against_merge then update_voxel (r.mask v) (mask_block (v - origin))
      else some (mask_block (v - origin))
    else r.mask v

/-- block_min of the cube of edge s centred on the voxel of position p
(lines 95-96 and, identically, line 65). -/
def blockOrigin (d s : ℕ) (p : Vec3) : Vec3 :=
  pos_to_vox d p -
    ((((s - 1) / 2 : ℕ) : ℤ), (((s - 1) / 2 : ℕ) : ℤ), (((s - 1) / 2 : ℕ) : ℤ))

/-- The block on which add_mask evaluates get_moves (lines 80-83): the
raw predicted block, or the blended destination cube read back from
the new mask.  The blended cube holds no NaN (every voxel of the cube
was just written), so the default 0 of getD is never consulted. -/
def moveSource (cfg : Config) (r : DenseRegion) (mask_block : Vec3 → ℚ)
    (pos : Vec3) : Vec3 → ℚ :=
  if r.move_based_on_new_mask then mask_block
  else fun w =>
    ((blendMask cfg r mask_block (blockOrigin r.MOVE_DELTA cfg.blockSize pos))
      (blockOrigin r.MOVE_DELTA cfg.blockSize pos + w)).getD 0

/-- The body of the move loop of add_mask (lines 84-90): the candidate
centre pos + move is dropped if any component reaches move_bounds or is
at most 1; otherwise, if unvisited and scored at least t_move, it is
marked visited and enqueued with priority -score. -/
def process_move (cfg : Config) (pos : Vec3) (r : DenseRegion) (mv : Vec3 × ℚ) :
    DenseRegion :=
  if (decide (r.move_bounds.1 ≤ (pos + mv.1).1) ||
        decide (r.move_bounds.2.1 ≤ (pos + mv.1).2.1) ||
        decide (r.move_bounds.2.2 ≤ (pos + mv.1).2.2)) ||
      (decide ((pos + mv.1).1 ≤ 1) || decide ((pos + mv.1).2.1 ≤ 1) ||
        decide ((pos + mv.1).2.2 ≤ 1)) then r
  else if decide ((pos + mv.1) ∉ r.visited) && decide (cfg.tMove ≤ mv.2) then
    { r with
      visited := (pos + mv.1) :: r.visited
      queue := r.queue ++ [(some (-mv.2), pos + mv.1)]
      enq_log := r.enq_log ++ [pos + mv.1] }
  else r

/-- add_mask (lines 64-90): merge the predicted block into the mask at
the cube centred on mask_pos, then score the six moves (on the raw
block or on the blended cube, by configuration) and enqueue the
qualifying neighbours in source order.  Both blocks that reach
get_moves have edge length block_size, which is passed as the shape. -/
def add_mask (cfg : Config) (r : DenseRegion) (mask_block : Vec3 → ℚ)
    (mask_pos : Vec3) : DenseRegion :=
  let origin : Vec3 := blockOrigin r.MOVE_DELTA cfg.blockSize mask_pos
  let newMask : Vec3 → Option ℚ := blendMask cfg r mask_block origin
  let src : Vec3 → ℚ := moveSource cfg r mask_block mask_pos
  let new_moves : List (Vec3 × ℚ) := get_moves r.MOVE_DELTA cfg.blockSize src
  new_moves.foldl (process_move cfg mask_pos) { r with mask := newMask }

/-- The record returned by get_next_block (lines 116-119); blocks are
indexed by offsets 0 <= w < block_size from block_min. -/
structure Block where
  image : Vec3 → ℚ
  mask : Vec3 → ℚ
  target : Option (Vec3 → ℚ)
  position : Vec3

/-- The record sliced for position p (lines 94-113): the image, mask
and target cubes start at block_min = voxel - margin; the mask cube is
a copy with v_false substituted for NaN. -/
def nextBlock (cfg : Config) (r : DenseRegion) (p : Vec3) : Block :=
  { image := fun w => r.image (blockOrigin r.MOVE_DELTA cfg.blockSize p + w)
    mask := fun w => (r.mask (blockOrigin r.MOVE_DELTA cfg.blockSize p + w)).getD cfg.vFalse
    target := r.target.map (fun t => fun w => t (blockOrigin r.MOVE_DELTA cfg.blockSize p + w))
    position := p }

/-- get_next_block (lines 92-119): pop the best queue entry and slice
its block record.  Returns none on an empty queue (Queue.get would
block); the region comes back with the entry removed and the stored
mask untouched. -/
def get_next_block (cfg : Config) (r : DenseRegion) : Option (Block × DenseRegion) :=
  match popMin r.queue with
  | none => none
  | some (e, rest) =>
    some (nextBlock cfg r e.2,
          { r with queue := rest, processed := r.processed + 1 })

/-- The loop state of fill: the region plus the local moves counter. -/
structure FillSt where
  reg : DenseRegion
  moves : ℕ

/-- The batch extraction of fill (line 126): up to batch blocks are
popped, stopping early when the queue drains. -/
def getBatch (cfg : Config) : ℕ → DenseRegion → List Block × DenseRegion
  | 0, r => ([], r)
  | Nat.succ n, r =>
    match get_next_block cfg r with
    | none => ([], r)
    | some (b, r2) =>
      let rest := getBatch cfg n r2
      (b :: rest.1, rest.2)

/-- One iteration of the fill loop body (lines 126-152): extract a
batch, add the batch length to moves only under verbose (lines
128-129), run the predictor on each block and route every output to
add_mask in batch order.  The multi-GPU padding kludge (lines 141-146)
is the multi_gpu_pad_kludge=None path: padding is absent and outputs
are indexed exactly by the batch. -/
def fillStep (cfg : Config) (model : Block → Vec3 → ℚ) (verbose : Bool)
    (batch : ℕ) (st : FillSt) : FillSt :=
  let bd := getBatch cfg batch st.reg
  let moves2 : ℕ := if verbose then st.moves + bd.1.length else st.moves
  let reg2 := bd.1.foldl (fun acc b => add_mask cfg acc (model b) b.position) bd.2
  { reg := reg2, moves := moves2 }

/-- The break test at the end of the loop body (line 154):
max_moves is set and moves exceeds it. -/
def stopAfter (maxMoves : Option ℕ) (moves : ℕ) : Bool :=
  match maxMoves with
  | none => false
  | some m => decide (m < moves)

/-- The fill loop (lines 125-155), fuel-indexed: while the queue is
nonempty, run one body iteration and stop if the break test fires. -/
def fillLoop (cfg : Config) (model : Block → Vec3 → ℚ) (verbose : Bool)
    (batch : ℕ) (maxMoves : Option ℕ) : ℕ → FillSt → FillSt
  | 0, st => st
  | Nat.succ n, st =>
    if st.reg.queue = [] then st
    else if stopAfter maxMoves (fillStep cfg model verbose batch st).moves then
      fillStep cfg model verbose batch st
    else fillLoop cfg model verbose batch maxMoves n (fillStep cfg model verbose batch st)

/-- fill (line 121): the loop started with moves = 0. -/
def fillRun (cfg : Config) (model : Block → Vec3 → ℚ) (verbose : Bool)
    (batch : ℕ) (maxMoves : Option ℕ) (fuel : ℕ) (r : DenseRegion) : FillSt :=
  fillLoop cfg model verbose batch maxMoves fuel { reg := r, moves := 0 }

/-- The update condition of the conservative branch exactly as line 71
computes it: old is NaN, or old exceeds one half, or new is strictly
below old. -/
def replaceCond (old : Option ℚ) (new : ℚ) : Bool :=
  match old with
  | none => true
  | some a => decide (half < a) || decide (new < a)

/-- The strict-interior condition of the enqueue filter: every
component of c lies strictly between 1 and the matching move_bounds
component.  This is the negation of the guard on line 86. -/
def inMoveBoundsInterior (mb c : Vec3) : Prop :=
  1 < c.1 ∧ c.1 < mb.1 ∧ 1 < c.2.1 ∧ c.2.1 < mb.2.1 ∧ 1 < c.2.2 ∧ c.2.2 < mb.2.2

instance (mb c : Vec3) : Decidable (inMoveBoundsInterior mb c) := by
  unfold inMoveBoundsInterior; infer_instance

/-- The cubic span of edge s centred on the voxel of p lies inside the
volume of shape bounds.  This is what the shape assertions of
get_next_block (lines 114-115) require of every numpy slice taken by
get_next_block and add_mask. -/
def blockSpanInBounds (d s : ℕ) (bounds p : Vec3) : Prop :=
  0 ≤ (blockOrigin d s p).1 ∧ (blockOrigin d s p).1 + (s : ℤ) ≤ bounds.1 ∧
  0 ≤ (blockOrigin d s p).2.1 ∧ (blockOrigin d s p).2.1 + (s : ℤ) ≤ bounds.2.1 ∧
  0 ≤ (blockOrigin d s p).2.2 ∧ (blockOrigin d s p).2.2 + (s : ℤ) ≤ bounds.2.2

instance (d s : ℕ) (bounds p : Vec3) : Decidable (blockSpanInBounds d s bounds p) := by
  unfold blockSpanInBounds; infer_instance

/-- The default seed of the constructor (line 33):
floor_divide(move_bounds, 2) + 1. -/
def default_seed (d : ℕ) (bounds : Vec3) : Vec3 :=
  vfdiv (vox_to_pos d bounds - (1, 1, 1)) 2 + (1, 1, 1)

/-- One component of the single-plane description of the slice that
get_moves actually scores: index ctr + d for a +1 move component,
ctr - d for a -1 component, and the whole range from ctr - d to
ctr + d for a 0 component. -/
def faceLoC (d ctr m : ℤ) : ℤ := if m = 1 then ctr + d else ctr - d

/-- Upper end (exclusive) of the single-plane description, per
component. -/
def faceHiC (d ctr m : ℤ) : ℤ :=
  if m = 1 then ctr + d + 1 else if m = -1 then ctr - d + 1 else ctr + d + 1

/-- The maximum of the block over the single plane at offset d from
ctr on the move axis, with cross-section from ctr - d to ctr + d on
the other axes. -/
def facePlaneMax (d s : ℕ) (blk : Vec3 → ℚ) (mv : Vec3) : ℚ :=
  boxMax blk
    (faceLoC d (ctrOf s) mv.1, faceLoC d (ctrOf s) mv.2.1, faceLoC d (ctrOf s) mv.2.2)
    (faceHiC d (ctrOf s) mv.1, faceHiC d (ctrOf s) mv.2.1, faceHiC d (ctrOf s) mv.2.2)

/-- Follows the spec words of claim C2: the new value replaces the old
exactly when the old value is unknown, OR the old value exceeds 0.5
and is not already lower than the new value, OR the new value is
strictly lower than the old. -/
def specReplaceCond (old : Option ℚ) (new : ℚ) : Bool :=
  match old with
  | none => true
  | some a => (decide (half < a) && !(decide (a < new))) || decide (new < a)

/-- Follows the spec words of claim C6, lower end: the half of the
block adjacent to the face, a slab of thickness 2d = (s-1)/2 on the
move axis (full range elsewhere). -/
def specHalfLo (d s : ℕ) (m : ℤ) : ℤ := if m = 1 then (s : ℤ) - 2 * d else 0

/-- Follows the spec words of claim C6, upper end (exclusive). -/
def specHalfHi (d s : ℕ) (m : ℤ) : ℤ := if m = -1 then 2 * d else (s : ℤ)

/-- Follows the spec words of claim C6: the maximum value within the
half of the block adjacent to the face of direction mv. -/
def specFaceHalfMax (d s : ℕ) (blk : Vec3 → ℚ) (mv : Vec3) : ℚ :=
  boxMax blk
    (specHalfLo d s mv.1, specHalfLo d s mv.2.1, specHalfLo d s mv.2.2)
    (specHalfHi d s mv.1, specHalfHi d s mv.2.1, specHalfHi d s mv.2.2)

/-- The Bool form of the full enqueue condition of lines 86-88, with
the visited set to test against passed explicitly. -/
def enqCondB (cfg : Config) (mb : Vec3) (vis : List Vec3) (pos : Vec3)
    (mv : Vec3 × ℚ) : Bool :=
  decide (inMoveBoundsInterior mb (pos + mv.1)) &&
    decide ((pos + mv.1) ∉ vis) && decide (cfg.tMove ≤ mv.2)

/-- The lattice positions that satisfy the strict-interior filter, as
a finite set. -/
def interiorFinset (mb : Vec3) : Finset Vec3 :=
  Finset.Icc ((2 : ℤ), (2 : ℤ), (2 : ℤ)) (mb - (1, 1, 1))

/-- Interior positions not yet marked visited. -/
def unvisitedCount (r : DenseRegion) : ℕ :=
  ((interiorFinset r.move_bounds).filter (fun c => c ∉ r.visited)).card

/-- The termination measure of the fill loop: pending queue entries
plus interior positions that can still be enqueued. -/
def regMeasure (r : DenseRegion) : ℕ := r.queue.length + unvisitedCount r

/-- Termination measure on fill states. -/
def stMeasure (st : FillSt) : ℕ := regMeasure st.reg

/-- The enqueue-log invariant: a position occurs in the log at most
once per membership in the visited set, plus once more if it is the
seed (whose construction-time enqueue did not mark it visited). -/
def EnqInv (r : DenseRegion) : Prop :=
  ∀ p : Vec3,
    r.enq_log.count p ≤
      (if p ∈ r.visited then 1 else 0) + (if p = r.seed_pos then 1 else 0)

/-- Concrete configuration for the executable test fixtures:
block_size 5 (so MOVE_DELTA 1), v_true 1, v_false 0, t_move one half. -/
def testCfg : Config := { blockSize := 5, vTrue := 1, vFalse := 0, tMove := half }

/-- All-zero test image. -/
def zeroImage : Vec3 → ℚ := fun _ => 0

/-- Predictor fixture that returns probability 1 everywhere. -/
def onesModel : Block → Vec3 → ℚ := fun _ _ => 1

/-- Predictor fixture that returns probability 0 everywhere. -/
def zerosModel : Block → Vec3 → ℚ := fun _ _ => 0

/-- Fresh default region on a 5x5x5 volume: move_bounds (4,4,4), seed
(3,3,3), interior lattice 2..3 cubed. -/
def testRegion : DenseRegion := mkDenseRegion testCfg zeroImage (5, 5, 5) none none none

/-- Fresh default region on a 4x4x5 volume: move_bounds (3,3,4), seed
(2,2,3), and just two interior lattice positions (2,2,2) and (2,2,3),
so a full traversal takes three dequeues (the seed is re-enqueued once
by its neighbour). -/
def smallRegion : DenseRegion := mkDenseRegion testCfg zeroImage (4, 4, 5) none none none

/-- Mask fixture holding 3/5 at voxel (2,2,2) and NaN elsewhere. -/
def maskSixTenths : Vec3 → Option ℚ := fun v => if v = (2, 2, 2) then some (mkRat 3 5) else none

/-- Conservative-mode region whose mask holds 3/5 at voxel (2,2,2). -/
def biasRegion : DenseRegion :=
  { mkDenseRegion testCfg zeroImage (5, 5, 5) none none (some maskSixTenths) with
    bias_against_merge := true
    mask := maskSixTenths }

/-- Predicted block fixture with constant value 9/10. -/
def blockNineTenths : Vec3 → ℚ := fun _ => mkRat 9 10

/-- Block fixture for claim C6: value 1 at (3,2,2), 0 elsewhere.  The
voxel lies in the half of a 5-cube adjacent to the +x face but not on
the single plane x = 4 that get_moves scores for that direction. -/
def c6Block : Vec3 → ℚ := fun v => if v = (3, 2, 2) then 1 else 0

/-- popMin of a nonempty queue always yields an entry. -/
theorem popMin_cons_ne_none (e : Entry) (es : List Entry) : popMin (e :: es) ≠ none := by
  cases h : popMin es with
  | none => simp [popMin, h]
  | some p =>
    rcases p with ⟨m, rest⟩
    by_cases hle : entryLe e m <;> simp [popMin, h, hle]

/-- popMin removes exactly one entry. -/
theorem popMin_length : ∀ (l : List Entry) (e : Entry) (rest : List Entry),
    popMin l = some (e, rest) → rest.length + 1 = l.length := by
  intro l
  induction l with
  | nil => intro e rest h; simp [popMin] at h
  | cons a as ih =>
    intro e rest h
    cases hm : popMin as with
    | none =>
      have hnil : as = [] := by
        cases as with
        | nil => rfl
        | cons b bs => exact absurd hm (popMin_cons_ne_none b bs)
      subst hnil
      simp [popMin] at h
      simp [h.2.symm]
    | some p =>
      rcases p with ⟨m, rest2⟩
      have hlen := ih m rest2 hm
      simp only [popMin, hm] at h
      by_cases hle : entryLe a m
      · simp only [if_pos hle, Option.some.injEq, Prod.mk.injEq] at h
        obtain ⟨h1, h2⟩ := h
        subst h2
        simp
      · simp only [if_neg hle, Option.some.injEq, Prod.mk.injEq] at h
        obtain ⟨h1, h2⟩ := h
        subst h2
        simp only [List.length_cons]
        omega

/-- Exhaustive description of one enqueue-loop step (lines 84-90):
either the interior filter or the visited/threshold test rejects the
candidate pos + move and the region is untouched, or the candidate is
marked visited and enqueued with priority -score, with everything else
unchanged. -/
theorem process_move_spec (cfg : Config) (pos : Vec3) (r : DenseRegion) (mv : Vec3 × ℚ) :
    (¬(inMoveBoundsInterior r.move_bounds (pos + mv.1) ∧ (pos + mv.1) ∉ r.visited ∧
        cfg.tMove ≤ mv.2) ∧ process_move cfg pos r mv = r) ∨
    ((inMoveBoundsInterior r.move_bounds (pos + mv.1) ∧ (pos + mv.1) ∉ r.visited ∧
        cfg.tMove ≤ mv.2) ∧
      process_move cfg pos r mv =
        { r with
          visited := (pos + mv.1) :: r.visited
          queue := r.queue ++ [(some (-mv.2), pos + mv.1)]
          enq_log := r.enq_log ++ [pos + mv.1] }) := by
  by_cases hint : inMoveBoundsInterior r.move_bounds (pos + mv.1)
  · have hguard :
        ((decide (r.move_bounds.1 ≤ (pos + mv.1).1) ||
            decide (r.move_bounds.2.1 ≤ (pos + mv.1).2.1) ||
            decide (r.move_bounds.2.2 ≤ (pos + mv.1).2.2)) ||
          (decide ((pos + mv.1).1 ≤ 1) || decide ((pos + mv.1).2.1 ≤ 1) ||
            decide ((pos + mv.1).2.2 ≤ 1))) = false := by
      obtain ⟨h1, h2, h3, h4, h5, h6⟩ := hint
      simp only [Bool.or_eq_false_iff, decide_eq_false_iff_not, not_le]
      omega
    by_cases hvis : (pos + mv.1) ∉ r.visited
    · by_cases hsc : cfg.tMove ≤ mv.2
      · right
        refine ⟨⟨hint, hvis, hsc⟩, ?_⟩
        unfold process_move
        rw [hguard]
        simp [hvis, hsc]
      · left
        refine ⟨by tauto, ?_⟩
        unfold process_move
        rw [hguard]
        simp [hsc]
    · left
      refine ⟨by tauto, ?_⟩
      unfold process_move
      rw [hguard]
      simp [hvis]
  · left
    refine ⟨by tauto, ?_⟩
    have hguard :
        ((decide (r.move_bounds.1 ≤ (pos + mv.1).1) ||
            decide (r.move_bounds.2.1 ≤ (pos + mv.1).2.1) ||
            decide (r.move_bounds.2.2 ≤ (pos + mv.1).2.2)) ||
          (decide ((pos + mv.1).1 ≤ 1) || decide ((pos + mv.1).2.1 ≤ 1) ||
            decide ((pos + mv.1).2.2 ≤ 1))) = true := by
      unfold inMoveBoundsInterior at hint
      simp only [Bool.or_eq_true, decide_eq_true_eq]
      omega
    unfold process_move
    rw [hguard]
    simp

/-- One enqueue-loop step changes only the queue, visited set and log. -/
theorem process_move_frame (cfg : Config) (pos : Vec3) (r : DenseRegion) (mv : Vec3 × ℚ) :
    (process_move cfg pos r mv).MOVE_DELTA = r.MOVE_DELTA ∧
    (process_move cfg pos r mv).mask = r.mask ∧
    (process_move cfg pos r mv).move_bounds = r.move_bounds ∧
    (process_move cfg pos r mv).seed_pos = r.seed_pos ∧
    (process_move cfg pos r mv).processed = r.processed ∧
    (process_move cfg pos r mv).bounds = r.bounds := by
  rcases process_move_spec cfg pos r mv with ⟨-, h⟩ | ⟨-, h⟩ <;> rw [h] <;>
    exact ⟨rfl, rfl, rfl, rfl, rfl, rfl⟩

/-- One enqueue-loop step never removes a visited mark. -/
theorem process_move_visited_sub (cfg : Config) (pos : Vec3) (r : DenseRegion)
    (mv : Vec3 × ℚ) : r.visited ⊆ (process_move cfg pos r mv).visited := by
  rcases process_move_spec cfg pos r mv with ⟨-, h⟩ | ⟨-, h⟩ <;> rw [h]
  · exact fun a ha => ha
  · exact fun a ha => List.mem_cons_of_mem _ ha

/-- Membership in the interior finset is the strict-interior filter. -/
theorem mem_interiorFinset (mb c : Vec3) :
    c ∈ interiorFinset mb ↔ inMoveBoundsInterior mb c := by
  rcases c with ⟨cx, cy, cz⟩
  rcases mb with ⟨mx, my, mz⟩
  unfold interiorFinset inMoveBoundsInterior
  simp only [Finset.mem_Icc, Prod.mk_sub_mk, Prod.mk_le_mk]
  omega

/-- Marking one fresh interior position visited frees exactly one slot
of the unvisited-interior count. -/
theorem filter_notmem_cons_card (S : Finset Vec3) (vis : List Vec3) (c : Vec3)
    (hc : c ∈ S) (hnv : c ∉ vis) :
    (S.filter (fun x => x ∉ (c :: vis))).card + 1 = (S.filter (fun x => x ∉ vis)).card := by
  have hs : S.filter (fun x => x ∉ (c :: vis)) = (S.filter (fun x => x ∉ vis)).erase c := by
    ext x
    simp only [Finset.mem_filter, Finset.mem_erase, List.mem_cons, not_or]
    tauto
  have hcf : c ∈ S.filter (fun x => x ∉ vis) := by
    simp only [Finset.mem_filter]
    exact ⟨hc, hnv⟩
  rw [hs, Finset.card_erase_of_mem hcf]
  have hpos : 0 < (S.filter (fun x => x ∉ vis)).card := Finset.card_pos.mpr ⟨c, hcf⟩
  omega

/-- One enqueue-loop step never increases the termination measure. -/
theorem process_move_measure (cfg : Config) (pos : Vec3) (r : DenseRegion)
    (mv : Vec3 × ℚ) : regMeasure (process_move cfg pos r mv) ≤ regMeasure r := by
  rcases process_move_spec cfg pos r mv with ⟨-, h⟩ | ⟨⟨hint, hvis, -⟩, h⟩
  · rw [h]
  · rw [h]
    unfold regMeasure unvisitedCount
    have hcard := filter_notmem_cons_card (interiorFinset r.move_bounds) r.visited
      (pos + mv.1) ((mem_interiorFinset _ _).mpr hint) hvis
    simp only [List.length_append, List.length_cons, List.length_nil]
    omega

/-- One enqueue-loop step preserves the enqueue-log invariant. -/
theorem process_move_EnqInv (cfg : Config) (pos : Vec3) (r : DenseRegion)
    (mv : Vec3 × ℚ) (h : EnqInv r) : EnqInv (process_move cfg pos r mv) := by
  rcases process_move_spec cfg pos r mv with ⟨-, he⟩ | ⟨⟨-, hvis, -⟩, he⟩
  · rw [he]; exact h
  · rw [he]
    intro p
    have hcount := h p
    simp only [List.count_append, List.count_cons, List.count_nil, List.mem_cons,
      beq_iff_eq]
    by_cases hp : p = pos + mv.1
    · have hv0 : (if p ∈ r.visited then 1 else 0) = 0 := by
        subst hp; simp [hvis]
      rw [hv0] at hcount
      simp only [if_pos hp.symm, if_pos (Or.inl hp)]
      omega
    · simp only [if_neg (Ne.symm hp)]
      have hiff : (p = pos + mv.1 ∨ p ∈ r.visited) ↔ p ∈ r.visited := by tauto
      rw [if_congr hiff rfl rfl]
      omega

/-- add_mask unfolded to its fold over the six scored moves. -/
theorem add_mask_eq_foldl (cfg : Config) (r : DenseRegion) (mask_block : Vec3 → ℚ)
    (mask_pos : Vec3) :
    add_mask cfg r mask_block mask_pos =
      (get_moves r.MOVE_DELTA cfg.blockSize (moveSource cfg r mask_block mask_pos)).foldl
        (process_move cfg mask_pos)
        { r with
          mask := blendMask cfg r mask_block
            (blockOrigin r.MOVE_DELTA cfg.blockSize mask_pos) } := rfl

/-- The enqueue fold changes only the queue, visited set and log. -/
theorem foldl_process_move_frame (cfg : Config) (pos : Vec3) :
    ∀ (l : List (Vec3 × ℚ)) (r : DenseRegion),
      (l.foldl (process_move cfg pos) r).MOVE_DELTA = r.MOVE_DELTA ∧
      (l.foldl (process_move cfg pos) r).mask = r.mask ∧
      (l.foldl (process_move cfg pos) r).move_bounds = r.move_bounds ∧
      (l.foldl (process_move cfg pos) r).seed_pos = r.seed_pos ∧
      (l.foldl (process_move cfg pos) r).processed = r.processed ∧
      (l.foldl (process_move cfg pos) r).bounds = r.bounds := by
  intro l
  induction l with
  | nil => intro r; exact ⟨rfl, rfl, rfl, rfl, rfl, rfl⟩
  | cons e es ih =>
    intro r
    simp only [List.foldl_cons]
    obtain ⟨h1, h2, h3, h4, h5, h6⟩ := ih (process_move cfg pos r e)
    obtain ⟨g1, g2, g3, g4, g5, g6⟩ := process_move_frame cfg pos r e
    exact ⟨h1.trans g1, h2.trans g2, h3.trans g3, h4.trans g4, h5.trans g5, h6.trans g6⟩

/-- The enqueue fold never removes a visited mark. -/
theorem foldl_process_move_visited_sub (cfg : Config) (pos : Vec3) :
    ∀ (l : List (Vec3 × ℚ)) (r : DenseRegion),
      r.visited ⊆ (l.foldl (process_move cfg pos) r).visited := by
  intro l
  induction l with
  | nil => intro r a ha; exact ha
  | cons e es ih =>
    intro r
    simp only [List.foldl_cons]
    exact fun a ha => ih (process_move cfg pos r e) (process_move_visited_sub cfg pos r e ha)

/-- The enqueue fold never increases the termination measure. -/
theorem foldl_process_move_measure (cfg : Config) (pos : Vec3) :
    ∀ (l : List (Vec3 × ℚ)) (r : DenseRegion),
      regMeasure (l.foldl (process_move cfg pos) r) ≤ regMeasure r := by
  intro l
  induction l with
  | nil => intro r; exact le_rfl
  | cons e es ih =>
    intro r
    simp only [List.foldl_cons]
    exact (ih (process_move cfg pos r e)).trans (process_move_measure cfg pos r e)

/-- The enqueue fold preserves the enqueue-log invariant. -/
theorem foldl_process_move_EnqInv (cfg : Config) (pos : Vec3) :
    ∀ (l : List (Vec3 × ℚ)) (r : DenseRegion),
      EnqInv r → EnqInv (l.foldl (process_move cfg pos) r) := by
  intro l
  induction l with
  | nil => intro r h; exact h
  | cons e es ih =>
    intro r h
    simp only [List.foldl_cons]
    exact ih (process_move cfg pos r e) (process_move_EnqInv cfg pos r e h)

/-- add_mask changes only the mask, queue, visited set and log; the
new mask is the blend of the block into the cube at the block origin. -/
theorem add_mask_frame (cfg : Config) (r : DenseRegion) (blk : Vec3 → ℚ) (pos : Vec3) :
    (add_mask cfg r blk pos).MOVE_DELTA = r.MOVE_DELTA ∧
    (add_mask cfg r blk pos).mask =
      blendMask cfg r blk (blockOrigin r.MOVE_DELTA cfg.blockSize pos) ∧
    (add_mask cfg r blk pos).move_bounds = r.move_bounds ∧
    (add_mask cfg r blk pos).seed_pos = r.seed_pos ∧
    (add_mask cfg r blk pos).processed = r.processed ∧
    (add_mask cfg r blk pos).bounds = r.bounds := by
  rw [add_mask_eq_foldl]
  exact foldl_process_move_frame cfg pos _ _

/-- add_mask never removes a visited mark. -/
theorem add_mask_visited_sub (cfg : Config) (r : DenseRegion) (blk : Vec3 → ℚ)
    (pos : Vec3) : r.visited ⊆ (add_mask cfg r blk pos).visited := by
  rw [add_mask_eq_foldl]
  exact foldl_process_move_visited_sub cfg pos
    (get_moves r.MOVE_DELTA cfg.blockSize (moveSource cfg r blk pos))
    { r with mask := blendMask cfg r blk (blockOrigin r.MOVE_DELTA cfg.blockSize pos) }

/-- add_mask never increases the termination measure. -/
theorem add_mask_measure (cfg : Config) (r : DenseRegion) (blk : Vec3 → ℚ)
    (pos : Vec3) : regMeasure (add_mask cfg r blk pos) ≤ regMeasure r := by
  rw [add_mask_eq_foldl]
  exact foldl_process_move_measure cfg pos
    (get_moves r.MOVE_DELTA cfg.blockSize (moveSource cfg r blk pos))
    { r with mask := blendMask cfg r blk (blockOrigin r.MOVE_DELTA cfg.blockSize pos) }

/-- add_mask preserves the enqueue-log invariant. -/
theorem add_mask_EnqInv (cfg : Config) (r : DenseRegion) (blk : Vec3 → ℚ)
    (pos : Vec3) (h : EnqInv r) : EnqInv (add_mask cfg r blk pos) := by
  rw [add_mask_eq_foldl]
  exact foldl_process_move_EnqInv cfg pos
    (get_moves r.MOVE_DELTA cfg.blockSize (moveSource cfg r blk pos))
    { r with mask := blendMask cfg r blk (blockOrigin r.MOVE_DELTA cfg.blockSize pos) } h

/-- get_next_block, unfolded at a successful pop. -/
theorem get_next_block_eq (cfg : Config) (r : DenseRegion) (e : Entry)
    (rest : List Entry) (hpm : popMin r.queue = some (e, rest)) :
    get_next_block cfg r =
      some (nextBlock cfg r e.2, { r with queue := rest, processed := r.processed + 1 }) := by
  unfold get_next_block
  rw [hpm]

/-- Batch extraction: length accounting and the untouched fields. -/
theorem getBatch_spec (cfg : Config) :
    ∀ (n : ℕ) (r : DenseRegion),
      (getBatch cfg n r).2.queue.length + (getBatch cfg n r).1.length = r.queue.length ∧
      (getBatch cfg n r).2.visited = r.visited ∧
      (getBatch cfg n r).2.enq_log = r.enq_log ∧
      (getBatch cfg n r).2.move_bounds = r.move_bounds ∧
      (getBatch cfg n r).2.mask = r.mask ∧
      (getBatch cfg n r).2.seed_pos = r.seed_pos ∧
      (getBatch cfg n r).2.MOVE_DELTA = r.MOVE_DELTA ∧
      (getBatch cfg n r).2.bounds = r.bounds ∧
      (getBatch cfg n r).2.processed = r.processed + (getBatch cfg n r).1.length ∧
      (getBatch cfg n r).1.length ≤ n ∧
      (r.queue ≠ [] → 1 ≤ n → 1 ≤ (getBatch cfg n r).1.length) := by
  intro n
  induction n with
  | zero =>
    intro r
    refine ⟨rfl, rfl, rfl, rfl, rfl, rfl, rfl, rfl, rfl, le_rfl, ?_⟩
    intro _ h
    exact absurd h (by omega)
  | succ k ih =>
    intro r
    cases hpm : popMin r.queue with
    | none =>
      have hq : r.queue = [] := by
        cases hqq : r.queue with
        | nil => rfl
        | cons a as => rw [hqq] at hpm; exact absurd hpm (popMin_cons_ne_none a as)
      have hg : get_next_block cfg r = none := by
        unfold get_next_block
        rw [hpm]
      refine ⟨?_, ?_, ?_, ?_, ?_, ?_, ?_, ?_, ?_, ?_, ?_⟩ <;>
          simp only [getBatch, hg, List.length_nil] <;>
          first
            | rfl
            | omega
            | (intro hne _; exact absurd hq hne)
    | some p =>
      rcases p with ⟨e, rest⟩
      have hlen := popMin_length r.queue e rest hpm
      have hg := get_next_block_eq cfg r e rest hpm
      obtain ⟨c1, c2, c3, c4, c5, c6, c7, c8, c9, c10, c11⟩ :=
        ih { r with queue := rest, processed := r.processed + 1 }
      have hq2 : ({ r with queue := rest, processed := r.processed + 1 } :
          DenseRegion).queue = rest := rfl
      have hp2 : ({ r with queue := rest, processed := r.processed + 1 } :
          DenseRegion).processed = r.processed + 1 := rfl
      rw [hq2] at c1
      rw [hp2] at c9
      simp only [getBatch, hg, List.length_cons]
      refine ⟨?_, c2, c3, c4, c5, c6, c7, c8, ?_, ?_, ?_⟩
      · omega
      · rw [c9]; omega
      · omega
      · intro _ _; omega

/-- The blend fold of one batch: measure, visited set, invariant and
untouched fields. -/
theorem foldl_add_mask_facts (cfg : Config) (model : Block → Vec3 → ℚ) :
    ∀ (bs : List Block) (r : DenseRegion),
      regMeasure (bs.foldl (fun acc b => add_mask cfg acc (model b) b.position) r) ≤
          regMeasure r ∧
      r.visited ⊆ (bs.foldl (fun acc b => add_mask cfg acc (model b) b.position) r).visited ∧
      (EnqInv r → EnqInv (bs.foldl (fun acc b => add_mask cfg acc (model b) b.position) r)) ∧
      (bs.foldl (fun acc b => add_mask cfg acc (model b) b.position) r).seed_pos = r.seed_pos ∧
      (bs.foldl (fun acc b => add_mask cfg acc (model b) b.position) r).move_bounds =
          r.move_bounds ∧
      (bs.foldl (fun acc b => add_mask cfg acc (model b) b.position) r).processed =
          r.processed := by
  intro bs
  induction bs with
  | nil => intro r; exact ⟨le_rfl, fun a ha => ha, fun h => h, rfl, rfl, rfl⟩
  | cons b bs ih =>
    intro r
    simp only [List.foldl_cons]
    obtain ⟨h1, h2, h3, h4, h5, h6⟩ := ih (add_mask cfg r (model b) b.position)
    obtain ⟨g1, g2, g3, g4, g5, g6⟩ := add_mask_frame cfg r (model b) b.position
    refine ⟨h1.trans (add_mask_measure cfg r (model b) b.position), ?_, ?_,
      h4.trans g4, h5.trans g3, h6.trans g5⟩
    · exact fun a ha => h2 (add_mask_visited_sub cfg r (model b) b.position ha)
    · intro h
      exact h3 (add_mask_EnqInv cfg r (model b) b.position h)

/-- fillStep unfolded. -/
theorem fillStep_eq (cfg : Config) (model : Block → Vec3 → ℚ) (verbose : Bool)
    (batch : ℕ) (st : FillSt) :
    fillStep cfg model verbose batch st =
      { reg := (getBatch cfg batch st.reg).1.foldl
          (fun acc b => add_mask cfg acc (model b) b.position) (getBatch cfg batch st.reg).2
        moves := if verbose then st.moves + (getBatch cfg batch st.reg).1.length
          else st.moves } := rfl

/-- One loop body iteration: facts used by the loop proofs. -/
theorem fillStep_facts (cfg : Config) (model : Block → Vec3 → ℚ) (verbose : Bool)
    (batch : ℕ) (st : FillSt) :
    (st.reg.queue ≠ [] → 1 ≤ batch →
      stMeasure (fillStep cfg model verbose batch st) < stMeasure st) ∧
    stMeasure (fillStep cfg model verbose batch st) ≤ stMeasure st ∧
    (fillStep cfg model verbose batch st).moves =
      (if verbose then st.moves + (getBatch cfg batch st.reg).1.length else st.moves) ∧
    (getBatch cfg batch st.reg).1.length ≤ batch ∧
    (fillStep cfg model verbose batch st).reg.processed =
      st.reg.processed + (getBatch cfg batch st.reg).1.length ∧
    st.reg.visited ⊆ (fillStep cfg model verbose batch st).reg.visited ∧
    (EnqInv st.reg → EnqInv (fillStep cfg model verbose batch st).reg) ∧
    (fillStep cfg model verbose batch st).reg.seed_pos = st.reg.seed_pos := by
  obtain ⟨b1, b2, b3, b4, b5, b6, b7, b8, b9, b10, b11⟩ := getBatch_spec cfg batch st.reg
  obtain ⟨f1, f2, f3, f4, f5, f6⟩ :=
    foldl_add_mask_facts cfg model (getBatch cfg batch st.reg).1 (getBatch cfg batch st.reg).2
  rw [fillStep_eq]
  have hmb : regMeasure (getBatch cfg batch st.reg).2 + (getBatch cfg batch st.reg).1.length =
      regMeasure st.reg := by
    unfold regMeasure unvisitedCount
    rw [b4, b2]
    omega
  refine ⟨?_, ?_, rfl, b10, ?_, ?_, ?_, ?_⟩
  · intro hne hb
    have hlen := b11 hne hb
    dsimp only [stMeasure]
    omega
  · dsimp only [stMeasure]
    omega
  · rw [f6, b9]
  · intro a ha
    rw [b2] at f2
    exact f2 ha
  · intro h
    apply f3
    unfold EnqInv at h ⊢
    rw [b2, b3, b6]
    exact h
  · rw [f4, b6]

/-- With fuel at least the measure and a positive batch, the loop has
stopped: either the queue drained or the budget break fired. -/
theorem fillLoop_exits (cfg : Config) (model : Block → Vec3 → ℚ) (verbose : Bool)
    (batch : ℕ) (maxM : Option ℕ) :
    ∀ (fuel : ℕ) (st : FillSt), stMeasure st ≤ fuel → 1 ≤ batch →
      ((fillLoop cfg model verbose batch maxM fuel st).reg.queue = [] ∨
        stopAfter maxM (fillLoop cfg model verbose batch maxM fuel st).moves = true) := by
  intro fuel
  induction fuel with
  | zero =>
    intro st hm _
    left
    have hq : st.reg.queue.length = 0 := by
      unfold stMeasure regMeasure at hm
      omega
    exact List.length_eq_zero.mp hq
  | succ n ih =>
    intro st hm hb
    by_cases hq : st.reg.queue = []
    · left
      simp only [fillLoop, if_pos hq]
      exact hq
    · obtain ⟨m1, -, -, -, -, -, -, -⟩ := fillStep_facts cfg model verbose batch st
      have hlt := m1 hq hb
      simp only [fillLoop, if_neg hq]
      by_cases hstop : stopAfter maxM (fillStep cfg model verbose batch st).moves = true
      · rw [if_pos hstop]
        right
        exact hstop
      · rw [if_neg hstop]
        exact ih (fillStep cfg model verbose batch st) (by omega) hb

/-- Under verbose the moves counter at loop exit exceeds the budget by
at most one batch, because the loop re-enters only while at or below
the budget. -/
theorem fillLoop_moves_bound (cfg : Config) (model : Block → Vec3 → ℚ)
    (batch : ℕ) (m : ℕ) :
    ∀ (fuel : ℕ) (st : FillSt), st.moves ≤ m →
      (fillLoop cfg model true batch (some m) fuel st).moves ≤ m + batch := by
  intro fuel
  induction fuel with
  | zero =>
    intro st hm
    exact hm.trans (by omega)
  | succ n ih =>
    intro st hm
    by_cases hq : st.reg.queue = []
    · simp only [fillLoop, if_pos hq]
      exact hm.trans (by omega)
    · obtain ⟨-, -, m3, m4, -, -, -, -⟩ := fillStep_facts cfg model true batch st
      simp only [if_true] at m3
      have hstepmoves : (fillStep cfg model true batch st).moves ≤ st.moves + batch := by
        omega
      simp only [fillLoop, if_neg hq]
      by_cases hstop : stopAfter (some m) (fillStep cfg model true batch st).moves = true
      · rw [if_pos hstop]
        omega
      · rw [if_neg hstop]
        have hle : (fillStep cfg model true batch st).moves ≤ m := by
          unfold stopAfter at hstop
          simp only [decide_eq_true_eq] at hstop
          omega
        exact ih (fillStep cfg model true batch st) hle

/-- Under verbose, moves and the ghost processed counter advance in
lock step. -/
theorem fillLoop_moves_processed (cfg : Config) (model : Block → Vec3 → ℚ)
    (batch : ℕ) (maxM : Option ℕ) :
    ∀ (fuel : ℕ) (st : FillSt),
      (fillLoop cfg model true batch maxM fuel st).reg.processed + st.moves =
        (fillLoop cfg model true batch maxM fuel st).moves + st.reg.processed := by
  intro fuel
  induction fuel with
  | zero =>
    intro st
    simp only [fillLoop]
    omega
  | succ n ih =>
    intro st
    by_cases hq : st.reg.queue = []
    · have hfix : fillLoop cfg model true batch maxM (n + 1) st = st := by
        simp only [fillLoop, if_pos hq]
      rw [hfix]
      omega
    · obtain ⟨-, -, m3, -, m5, -, -, -⟩ := fillStep_facts cfg model true batch st
      simp only [if_true] at m3
      simp only [fillLoop, if_neg hq]
      by_cases hstop : stopAfter maxM (fillStep cfg model true batch st).moves = true
      · rw [if_pos hstop]
        omega
      · rw [if_neg hstop]
        have := ih (fillStep cfg model true batch st)
        omega

/-- Without verbose the moves counter stays at zero, so an ℕ budget can
never fire: the loop is the same as the budget-free loop. -/
theorem fillLoop_verbose_false_budget_free (cfg : Config) (model : Block → Vec3 → ℚ)
    (batch : ℕ) (m : ℕ) :
    ∀ (fuel : ℕ) (st : FillSt), st.moves = 0 →
      fillLoop cfg model false batch (some m) fuel st =
        fillLoop cfg model false batch none fuel st := by
  intro fuel
  induction fuel with
  | zero => intro st _; rfl
  | succ n ih =>
    intro st hm
    by_cases hq : st.reg.queue = []
    · simp only [fillLoop, if_pos hq]
    · obtain ⟨-, -, m3, -, -, -, -, -⟩ := fillStep_facts cfg model false batch st
      simp only [Bool.false_eq_true, if_false] at m3
      have hm2 : (fillStep cfg model false batch st).moves = 0 := by rw [m3, hm]
      have hstop : stopAfter (some m) (fillStep cfg model false batch st).moves = false := by
        unfold stopAfter
        rw [hm2]
        simp
      have hstop2 : stopAfter none (fillStep cfg model false batch st).moves = false := rfl
      simp only [fillLoop, if_neg hq, hstop, hstop2, Bool.false_eq_true, if_false]
      exact ih (fillStep cfg model false batch st) hm2

/-- The loop never removes a visited mark, preserves the enqueue-log
invariant, and keeps the seed position. -/
theorem fillLoop_invariants (cfg : Config) (model : Block → Vec3 → ℚ) (verbose : Bool)
    (batch : ℕ) (maxM : Option ℕ) :
    ∀ (fuel : ℕ) (st : FillSt),
      st.reg.visited ⊆ (fillLoop cfg model verbose batch maxM fuel st).reg.visited ∧
      (EnqInv st.reg → EnqInv (fillLoop cfg model verbose batch maxM fuel st).reg) ∧
      (fillLoop cfg model verbose batch maxM fuel st).reg.seed_pos = st.reg.seed_pos := by
  intro fuel
  induction fuel with
  | zero => intro st; exact ⟨fun a ha => ha, fun h => h, rfl⟩
  | succ n ih =>
    intro st
    by_cases hq : st.reg.queue = []
    · have hfix : fillLoop cfg model verbose batch maxM (n + 1) st = st := by
        simp only [fillLoop, if_pos hq]
      rw [hfix]
      exact ⟨fun a ha => ha, fun h => h, rfl⟩
    · obtain ⟨-, -, -, -, -, m6, m7, m8⟩ := fillStep_facts cfg model verbose batch st
      simp only [fillLoop, if_neg hq]
      by_cases hstop : stopAfter maxM (fillStep cfg model verbose batch st).moves = true
      · rw [if_pos hstop]
        exact ⟨m6, m7, m8⟩
      · rw [if_neg hstop]
        obtain ⟨i1, i2, i3⟩ := ih (fillStep cfg model verbose batch st)
        exact ⟨fun a ha => i1 (m6 ha), fun h => i2 (m7 h), i3.trans m8⟩

/-- The per-voxel conservative update, written through its Bool
condition. -/
theorem update_voxel_eq_replaceCond (old : Option ℚ) (new : ℚ) :
    update_voxel old new = if replaceCond old new then some new else old := by
  cases old with
  | none => rfl
  | some a =>
    simp only [update_voxel, replaceCond, Bool.or_eq_true, decide_eq_true_eq]

set_option maxRecDepth 10000 in
/-- C1: evaluation of the code at the failing input of the claim.  In
bias_against_merge mode a voxel whose accumulated value is 3/5 (which
exceeds one half) is raised to 9/10 by add_mask, because the update
condition of line 71 fires on every value above one half regardless of
the comparison with the new value.  The claim (and the spec) say the
value could only have decreased or stayed. -/
theorem c1_conservative_blend_raises_value :
    half < mkRat 3 5 ∧
    biasRegion.bias_against_merge = true ∧
    biasRegion.mask (2, 2, 2) = some (mkRat 3 5) ∧
    (add_mask testCfg biasRegion blockNineTenths (2, 2, 2)).mask (2, 2, 2) =
      some (mkRat 9 10) ∧
    mkRat 3 5 < mkRat 9 10 := by
  refine ⟨by decide, by decide, by decide, ?_, by decide⟩
  decide

set_option maxRecDepth 10000 in
/-- C2 (counterexample): at an accumulated value of 3/5 and a new
predicted value of 9/10 the replacement condition stated by the claim
is false (old exceeds 0.5 but is lower than new, and new is not lower
than old), yet conservative add_mask does replace the voxel value. -/
theorem c2_replace_rule_counterexample :
    specReplaceCond (some (mkRat 3 5)) (mkRat 9 10) = false ∧
    biasRegion.bias_against_merge = true ∧
    biasRegion.mask (2, 2, 2) = some (mkRat 3 5) ∧
    (add_mask testCfg biasRegion blockNineTenths (2, 2, 2)).mask (2, 2, 2) =
      some (mkRat 9 10) ∧
    some (mkRat 9 10) ≠ some (mkRat 3 5) := by
  refine ⟨by decide, by decide, by decide, ?_, by decide⟩
  decide

/-- C2 (amended): in conservative mode, add_mask replaces a voxel of
the destination cube exactly when the old value is unknown, OR the old
value exceeds 0.5 (regardless of how it compares with the new value),
OR the new value is strictly lower than the old; every other voxel of
the cube keeps its old value, and voxels outside the cube are
untouched. -/
theorem c2_amended_replace_rule (cfg : Config) (r : DenseRegion) (blk : Vec3 → ℚ)
    (p v : Vec3) :
    (add_mask cfg { r with bias_against_merge := true } blk p).mask v =
      (if inBlockBox (blockOrigin r.MOVE_DELTA cfg.blockSize p) cfg.blockSize v then
        (if replaceCond (r.mask v) (blk (v - blockOrigin r.MOVE_DELTA cfg.blockSize p))
          then some (blk (v - blockOrigin r.MOVE_DELTA cfg.blockSize p))
          else r.mask v)
      else r.mask v) := by
  obtain ⟨-, hmask, -, -, -, -⟩ :=
    add_mask_frame cfg { r with bias_against_merge := true } blk p
  rw [hmask]
  unfold blendMask
  rw [update_voxel_eq_replaceCond]
  simp

/-- C10: get_next_block never mutates the stored mask: after a
successful pop the region keeps every mask value it had, while the
returned block carries the copy with v_false substituted for the NaN
marker. -/
theorem c10_get_next_block_mask_frame (cfg : Config) (r : DenseRegion) :
    match get_next_block cfg r with
    | none => True
    | some (b, r2) =>
      (∀ v, r2.mask v = r.mask v) ∧
      (∀ w, b.mask w =
        (r.mask (blockOrigin r.MOVE_DELTA cfg.blockSize b.position + w)).getD cfg.vFalse) := by
  cases hpm : popMin r.queue with
  | none =>
    have hg : get_next_block cfg r = none := by
      unfold get_next_block
      rw [hpm]
    rw [hg]
    trivial
  | some p =>
    rcases p with ⟨e, rest⟩
    rw [get_next_block_eq cfg r e rest hpm]
    exact ⟨fun v => rfl, fun w => rfl⟩

/-- C7: unfilled_copy constructs the fresh seeded copy and transfers
the two configuration flags onto it, but — lacking a return statement —
hands back None, so no caller ever receives the region that the claim
describes. -/
theorem c7_unfilled_copy_returns_none (cfg : Config) (r : DenseRegion) :
    unfilled_copy cfg r = none := rfl

/-- The six move directions are pairwise distinct. -/
theorem movesList_nodup : movesList.Nodup := by decide

/-- The enqueue fold appends to the log exactly the targets of the
listed moves that pass the full enqueue condition evaluated against a
set W, provided the targets are pairwise distinct and W agrees with
the starting visited set of the fold on them. -/
theorem foldl_process_move_log (cfg : Config) (pos : Vec3) :
    ∀ (l : List (Vec3 × ℚ)) (r : DenseRegion) (W : List Vec3),
      (l.map (fun mv => pos + mv.1)).Nodup →
      (∀ mv ∈ l, ((pos + mv.1) ∈ r.visited ↔ (pos + mv.1) ∈ W)) →
      (l.foldl (process_move cfg pos) r).enq_log =
        r.enq_log ++
          (l.filter (enqCondB cfg r.move_bounds W pos)).map (fun mv => pos + mv.1) := by
  intro l
  induction l with
  | nil =>
    intro r W _ _
    simp
  | cons e es ih =>
    intro r W hnd hvis
    simp only [List.map_cons, List.nodup_cons] at hnd
    obtain ⟨hne, hnd2⟩ := hnd
    have hveq : ((pos + e.1) ∈ r.visited ↔ (pos + e.1) ∈ W) :=
      hvis e (List.mem_cons_self e es)
    rcases process_move_spec cfg pos r e with ⟨hno, heq⟩ | ⟨⟨hint, hv, hsc⟩, heq⟩
    · have hcond : enqCondB cfg r.move_bounds W pos e = false := by
        by_contra hcontra
        have htrue : enqCondB cfg r.move_bounds W pos e = true := by
          cases hb : enqCondB cfg r.move_bounds W pos e
          · exact absurd hb hcontra
          · rfl
        unfold enqCondB at htrue
        simp only [Bool.and_eq_true, decide_eq_true_eq] at htrue
        exact hno ⟨htrue.1.1, fun hmem => htrue.1.2 (hveq.mp hmem), htrue.2⟩
      rw [List.foldl_cons, heq]
      rw [ih r W hnd2 (fun mv hm => hvis mv (List.mem_cons_of_mem _ hm))]
      simp only [List.filter_cons, hcond, Bool.false_eq_true, if_false]
    · have hcond : enqCondB cfg r.move_bounds W pos e = true := by
        unfold enqCondB
        simp only [Bool.and_eq_true, decide_eq_true_eq]
        exact ⟨⟨hint, fun hmem => hv (hveq.mpr hmem)⟩, hsc⟩
      have hvis2 : ∀ mv ∈ es,
          ((pos + mv.1) ∈ ((pos + e.1) :: r.visited) ↔ (pos + mv.1) ∈ W) := by
        intro mv hm
        have hneq : pos + mv.1 ≠ pos + e.1 := by
          intro hcontra
          exact hne (hcontra ▸ List.mem_map_of_mem (fun x => pos + x.1) hm)
        constructor
        · intro hmem
          rcases List.mem_cons.mp hmem with h1 | h1
          · exact absurd h1 hneq
          · exact (hvis mv (List.mem_cons_of_mem _ hm)).mp h1
        · intro hmem
          exact List.mem_cons_of_mem _ ((hvis mv (List.mem_cons_of_mem _ hm)).mpr hmem)
      have hrec := ih
        { r with
          visited := (pos + e.1) :: r.visited
          queue := r.queue ++ [(some (-e.2), pos + e.1)]
          enq_log := r.enq_log ++ [pos + e.1] } W hnd2 hvis2
      rw [List.foldl_cons, heq, hrec]
      simp only [List.filter_cons, hcond, if_true, List.map_cons, List.append_assoc,
        List.singleton_append]

/-- add_mask appends to the log exactly the qualifying neighbours of
the six directions, in source order. -/
theorem add_mask_enq_log (cfg : Config) (r : DenseRegion) (blk : Vec3 → ℚ) (pos : Vec3) :
    (add_mask cfg r blk pos).enq_log =
      r.enq_log ++
        ((get_moves r.MOVE_DELTA cfg.blockSize (moveSource cfg r blk pos)).filter
          (enqCondB cfg r.move_bounds r.visited pos)).map (fun mv => pos + mv.1) := by
  rw [add_mask_eq_foldl]
  have hmap : (get_moves r.MOVE_DELTA cfg.blockSize (moveSource cfg r blk pos)).map
      (fun mv => pos + mv.1) = movesList.map (fun m => pos + m) := by
    unfold get_moves
    rw [List.map_map]
    rfl
  have hnd : ((get_moves r.MOVE_DELTA cfg.blockSize (moveSource cfg r blk pos)).map
      (fun mv => pos + mv.1)).Nodup := by
    rw [hmap]
    exact movesList_nodup.map (add_right_injective pos)
  exact foldl_process_move_log cfg pos
    (get_moves r.MOVE_DELTA cfg.blockSize (moveSource cfg r blk pos))
    { r with mask := blendMask cfg r blk (blockOrigin r.MOVE_DELTA cfg.blockSize pos) }
    r.visited hnd (fun mv _ => Iff.rfl)

/-- C8: for each of the six directions, add_mask enqueues the
neighbour pos + move if and only if it is strictly interior to
move_bounds, not yet visited, and the score that get_moves assigned to
that direction (from the configured move-source block) reaches
t_move. -/
theorem c8_enqueue_iff (cfg : Config) (r : DenseRegion) (blk : Vec3 → ℚ)
    (pos mv : Vec3) (hm : mv ∈ movesList) :
    ((pos + mv) ∈ (add_mask cfg r blk pos).enq_log.drop r.enq_log.length ↔
      (inMoveBoundsInterior r.move_bounds (pos + mv) ∧ (pos + mv) ∉ r.visited ∧
        cfg.tMove ≤ moveScore r.MOVE_DELTA cfg.blockSize (moveSource cfg r blk pos) mv)) := by
  rw [add_mask_enq_log, List.drop_left]
  constructor
  · intro hmem
    rcases List.mem_map.mp hmem with ⟨e, he, heq⟩
    rcases List.mem_filter.mp he with ⟨hein, hcond⟩
    rcases List.mem_map.mp hein with ⟨m0, hm0, hem⟩
    have he1 : e.1 = m0 := by rw [← hem]
    have hm0mv : m0 = mv := by
      apply add_left_cancel (a := pos)
      rw [← he1]
      exact heq
    unfold enqCondB at hcond
    simp only [Bool.and_eq_true, decide_eq_true_eq] at hcond
    have he2 : e.2 = moveScore r.MOVE_DELTA cfg.blockSize (moveSource cfg r blk pos) mv := by
      rw [← hem, hm0mv]
    rw [he1, hm0mv] at hcond
    rw [he2] at hcond
    exact ⟨hcond.1.1, hcond.1.2, hcond.2⟩
  · rintro ⟨h1, h2, h3⟩
    apply List.mem_map.mpr
    refine ⟨(mv, moveScore r.MOVE_DELTA cfg.blockSize (moveSource cfg r blk pos) mv), ?_, rfl⟩
    apply List.mem_filter.mpr
    refine ⟨List.mem_map.mpr ⟨mv, hm, rfl⟩, ?_⟩
    unfold enqCondB
    simp only [Bool.and_eq_true, decide_eq_true_eq]
    exact ⟨⟨h1, h2⟩, h3⟩

/-- C8 witness: from the seed (2,2,3) of the small test region with an
all-ones predicted block, the direction (0,0,-1) satisfies the filter,
the visited check and the threshold, and its target (2,2,2) is indeed
enqueued. -/
theorem c8_enqueue_iff_witness :
    (((0 : ℤ), (0 : ℤ), (-1 : ℤ)) : Vec3) ∈ movesList ∧
    (((2 : ℤ), (2 : ℤ), (3 : ℤ)) + (((0 : ℤ), (0 : ℤ), (-1 : ℤ)) : Vec3)) ∈
      (add_mask testCfg smallRegion (fun _ => 1) (2, 2, 3)).enq_log.drop
        smallRegion.enq_log.length :=
  ⟨by decide,
    (c8_enqueue_iff testCfg smallRegion (fun _ => 1) (2, 2, 3) (0, 0, -1)
      (by decide)).mpr (by decide)⟩

/-- Componentwise: the slice ends computed by get_moves coincide with
the single-plane description, for move components 1, 0 and -1. -/
theorem plane_face_comp (d ctr m : ℤ) (hm : m = 1 ∨ m = 0 ∨ m = -1) :
    planeMinC d ctr m = faceLoC d ctr m ∧ planeMaxC d ctr m = faceHiC d ctr m := by
  rcases hm with rfl | rfl | rfl <;>
    refine ⟨?_, ?_⟩ <;>
    · simp [planeMinC, planeMaxC, faceLoC, faceHiC, max_def, min_def]
      try ring

/-- C6 (amended): the score get_moves assigns to a direction is the
maximum over a single plane of the block: on the move axis the single
index ctr + d for a positive direction and ctr - d for a negative one,
where ctr = (s - 1) / 2 + 1 and d = MOVE_DELTA, and on the other two
axes the range ctr - d .. ctr + d.  It is not the maximum over the
half of the block adjacent to the face. -/
theorem c6_amended_single_plane_score (d s : ℕ) (blk : Vec3 → ℚ) (mv : Vec3)
    (hm : mv ∈ movesList) :
    moveScore d s blk mv = facePlaneMax d s blk mv := by
  have hc : (mv.1 = 1 ∨ mv.1 = 0 ∨ mv.1 = -1) ∧
      (mv.2.1 = 1 ∨ mv.2.1 = 0 ∨ mv.2.1 = -1) ∧
      (mv.2.2 = 1 ∨ mv.2.2 = 0 ∨ mv.2.2 = -1) := by
    simp only [movesList, List.mem_cons, List.not_mem_nil, or_false] at hm
    rcases hm with rfl | rfl | rfl | rfl | rfl | rfl <;> norm_num
  obtain ⟨h1c, h2c, h3c⟩ := hc
  unfold moveScore facePlaneMax planeMin planeMax
  rw [(plane_face_comp (d : ℤ) (ctrOf s) mv.1 h1c).1,
    (plane_face_comp (d : ℤ) (ctrOf s) mv.2.1 h2c).1,
    (plane_face_comp (d : ℤ) (ctrOf s) mv.2.2 h3c).1,
    (plane_face_comp (d : ℤ) (ctrOf s) mv.1 h1c).2,
    (plane_face_comp (d : ℤ) (ctrOf s) mv.2.1 h2c).2,
    (plane_face_comp (d : ℤ) (ctrOf s) mv.2.2 h3c).2]

set_option maxRecDepth 10000 in
/-- C6 witness: the single-plane description agrees with get_moves at
the concrete +x direction on the 5-cube fixture. -/
theorem c6_amended_witness :
    (((1 : ℤ), (0 : ℤ), (0 : ℤ)) : Vec3) ∈ movesList ∧
    moveScore 1 5 c6Block (1, 0, 0) = facePlaneMax 1 5 c6Block (1, 0, 0) :=
  ⟨by decide, c6_amended_single_plane_score 1 5 c6Block (1, 0, 0) (by decide)⟩

set_option maxRecDepth 10000 in
/-- C6 (counterexample): on a 5-cube with MOVE_DELTA 1, the block that
is 1 only at (3,2,2) has maximum 1 over the half adjacent to the +x
face, but get_moves scores the +x direction 0, because it reads only
the single plane x = 4. -/
theorem c6_half_block_counterexample :
    specFaceHalfMax 1 5 c6Block (1, 0, 0) = 1 ∧
    moveScore 1 5 c6Block (1, 0, 0) = 0 ∧
    (0 : ℚ) ≠ 1 := by
  refine ⟨by decide, by decide, by decide⟩

/-- Per-axis block bound: if the volume extent b is at least 4d + 1
and d does not divide b, then every coordinate c passing the per-axis
interior filter (2 <= c <= b fdiv d - 2), as well as the default seed
coordinate, keeps the whole span of length 4d + 1 centred on c * d
inside 0..b. -/
theorem axis_block_bound (d b c : ℤ) (hd : 1 ≤ d) (hb : 4 * d + 1 ≤ b)
    (hnd : ¬ d ∣ b)
    (hc : (2 ≤ c ∧ c ≤ b.fdiv d - 2) ∨ c = (b.fdiv d - 1).fdiv 2 + 1) :
    0 ≤ c * d - 2 * d ∧ c * d + 2 * d + 1 ≤ b := by
  have hdnz : d ≠ 0 := by omega
  have hdiv : d * (b / d) + b % d = b := Int.ediv_add_emod b d
  have hr1 : 1 ≤ b % d := by
    have h0 : 0 ≤ b % d := Int.emod_nonneg b hdnz
    have hne : b % d ≠ 0 := fun h => hnd (Int.dvd_of_emod_eq_zero h)
    omega
  have hr2 : b % d < d := Int.emod_lt_of_pos b (by omega)
  have hfd : b.fdiv d = b / d := Int.fdiv_eq_ediv b (by omega)
  set k := b / d with hk
  set m := d * k with hm
  set r0 := b % d with hr0
  have hk4 : 4 ≤ k := by
    by_contra hlt
    push_neg at hlt
    have hkle : k ≤ 3 := by omega
    have h3 : d * k ≤ d * 3 := mul_le_mul_of_nonneg_left hkle (by omega)
    have h3e : d * 3 = 3 * d := by ring
    rw [← hm, h3e] at h3
    omega
  have hcr : 2 ≤ c ∧ c ≤ k - 2 := by
    rcases hc with ⟨h1, h2⟩ | hseed
    · rw [hfd] at h2
      exact ⟨h1, h2⟩
    · rw [hfd] at hseed
      have hfd2 : (k - 1).fdiv 2 = (k - 1) / 2 := Int.fdiv_eq_ediv _ (by omega)
      rw [hfd2] at hseed
      omega
  obtain ⟨hc1, hc2⟩ := hcr
  have hlow : 2 * d ≤ c * d := mul_le_mul_of_nonneg_right hc1 (by omega)
  have hhigh : c * d ≤ (k - 2) * d := mul_le_mul_of_nonneg_right hc2 (by omega)
  have hke : (k - 2) * d = m - 2 * d := by rw [hm]; ring
  rw [hke] at hhigh
  set q := c * d
  omega

/-- C5 (amended): provided MOVE_DELTA is positive, block_size is
exactly 4 * MOVE_DELTA + 1, and on every axis the volume extent is at
least block_size and not a multiple of MOVE_DELTA, the block span of
every position that can be dequeued (the default seed or any position
passing the strict-interior enqueue filter) lies entirely within the
volume bounds, so the shape assertions of get_next_block cannot fire
and every region read or written is in bounds. -/
theorem c5_amended_block_in_bounds (cfg : Config) (bounds p : Vec3)
    (hd : 1 ≤ cfg.moveDelta)
    (hs : cfg.blockSize = 4 * cfg.moveDelta + 1)
    (hx : 4 * (cfg.moveDelta : ℤ) + 1 ≤ bounds.1)
    (hxnd : ¬ ((cfg.moveDelta : ℤ) ∣ bounds.1))
    (hy : 4 * (cfg.moveDelta : ℤ) + 1 ≤ bounds.2.1)
    (hynd : ¬ ((cfg.moveDelta : ℤ) ∣ bounds.2.1))
    (hz : 4 * (cfg.moveDelta : ℤ) + 1 ≤ bounds.2.2)
    (hznd : ¬ ((cfg.moveDelta : ℤ) ∣ bounds.2.2))
    (hp : p = default_seed cfg.moveDelta bounds ∨
      inMoveBoundsInterior (vox_to_pos cfg.moveDelta bounds - (1, 1, 1)) p) :
    blockSpanInBounds cfg.moveDelta cfg.blockSize bounds p := by
  have hdz : (1 : ℤ) ≤ (cfg.moveDelta : ℤ) := by exact_mod_cast hd
  have hcx : (2 ≤ p.1 ∧ p.1 ≤ bounds.1.fdiv (cfg.moveDelta : ℤ) - 2) ∨
      p.1 = (bounds.1.fdiv (cfg.moveDelta : ℤ) - 1).fdiv 2 + 1 := by
    rcases hp with rfl | hint
    · right
      rfl
    · left
      obtain ⟨a1, a2, -, -, -, -⟩ := hint
      unfold vox_to_pos vfdiv at a2
      simp only [Prod.fst_sub] at a2
      omega
  have hcy : (2 ≤ p.2.1 ∧ p.2.1 ≤ bounds.2.1.fdiv (cfg.moveDelta : ℤ) - 2) ∨
      p.2.1 = (bounds.2.1.fdiv (cfg.moveDelta : ℤ) - 1).fdiv 2 + 1 := by
    rcases hp with rfl | hint
    · right
      rfl
    · left
      obtain ⟨-, -, a3, a4, -, -⟩ := hint
      unfold vox_to_pos vfdiv at a4
      simp only [Prod.snd_sub, Prod.fst_sub] at a4
      omega
  have hcz : (2 ≤ p.2.2 ∧ p.2.2 ≤ bounds.2.2.fdiv (cfg.moveDelta : ℤ) - 2) ∨
      p.2.2 = (bounds.2.2.fdiv (cfg.moveDelta : ℤ) - 1).fdiv 2 + 1 := by
    rcases hp with rfl | hint
    · right
      rfl
    · left
      obtain ⟨-, -, -, -, a5, a6⟩ := hint
      unfold vox_to_pos vfdiv at a6
      simp only [Prod.snd_sub] at a6
      omega
  have hax := axis_block_bound (cfg.moveDelta : ℤ) bounds.1 p.1 hdz hx hxnd hcx
  have hay := axis_block_bound (cfg.moveDelta : ℤ) bounds.2.1 p.2.1 hdz hy hynd hcy
  have haz := axis_block_bound (cfg.moveDelta : ℤ) bounds.2.2 p.2.2 hdz hz hznd hcz
  have hmargin : (((cfg.blockSize - 1) / 2 : ℕ) : ℤ) = 2 * (cfg.moveDelta : ℤ) := by
    have h2 : (cfg.blockSize - 1) / 2 = 2 * cfg.moveDelta := by omega
    rw [h2]
    push_cast
    ring
  have hsz : ((cfg.blockSize : ℕ) : ℤ) = 4 * (cfg.moveDelta : ℤ) + 1 := by
    rw [hs]
    push_cast
    ring
  unfold blockSpanInBounds blockOrigin pos_to_vox vscale
  simp only [Prod.fst_sub, Prod.snd_sub, hmargin, hsz]
  set dd := (cfg.moveDelta : ℤ)
  set q1 := p.1 * dd
  have hq1 : dd * p.1 = q1 := by rw [mul_comm]
  set q2 := p.2.1 * dd
  have hq2 : dd * p.2.1 = q2 := by rw [mul_comm]
  set q3 := p.2.2 * dd
  have hq3 : dd * p.2.2 = q3 := by rw [mul_comm]
  rw [hq1, hq2, hq3]
  omega

/-- C5 (counterexample): with block_size 5 (MOVE_DELTA 1) on a 9x9x9
volume, position (7,5,5) passes the strict-interior enqueue filter
(move_bounds is (8,8,8)), yet its block span reaches index 9 on the x
axis, one past the last valid index 8: the extracted block would be
clipped and the shape assertion would fire. -/
theorem c5_counterexample :
    inMoveBoundsInterior (vox_to_pos 1 (9, 9, 9) - (1, 1, 1)) (7, 5, 5) ∧
    ¬ blockSpanInBounds 1 5 (9, 9, 9) (7, 5, 5) := by
  refine ⟨by decide, by decide⟩

/-- C5 witness: with block_size 9 (MOVE_DELTA 2) on an 11x11x11 volume
(11 is not a multiple of 2), the filter-passing position (3,3,3) has
its whole span in bounds, through the amended theorem. -/
theorem c5_amended_witness :
    (1 ≤ ({ blockSize := 9, vTrue := 1, vFalse := 0, tMove := half } : Config).moveDelta) ∧
    blockSpanInBounds ({ blockSize := 9, vTrue := 1, vFalse := 0, tMove := half } :
      Config).moveDelta 9 (11, 11, 11) (3, 3, 3) :=
  ⟨by decide,
    c5_amended_block_in_bounds { blockSize := 9, vTrue := 1, vFalse := 0, tMove := half }
      (11, 11, 11) (3, 3, 3) (by decide) (by decide) (by decide) (by decide)
      (by decide) (by decide) (by decide) (by decide)
      (Or.inr (by decide))⟩

/-- C9: the fill loop terminates for every volume, predictor and
configuration with a positive batch size: within stMeasure st loop
iterations (pending entries plus enqueueable interior positions) it
has exited — the frontier has drained or the budget break has fired —
and with no budget configured the frontier itself is empty, because
every enqueue consumes a fresh interior position and each iteration
dequeues at least one entry. -/
theorem c9_fill_terminates (cfg : Config) (model : Block → Vec3 → ℚ) (verbose : Bool)
    (b : ℕ) (maxM : Option ℕ) (st : FillSt) :
    ((fillLoop cfg model verbose (b + 1) maxM (stMeasure st) st).reg.queue = [] ∨
      stopAfter maxM (fillLoop cfg model verbose (b + 1) maxM (stMeasure st) st).moves =
        true) ∧
    (fillLoop cfg model verbose (b + 1) none (stMeasure st) st).reg.queue = [] := by
  constructor
  · exact fillLoop_exits cfg model verbose (b + 1) maxM (stMeasure st) st le_rfl (by omega)
  · rcases fillLoop_exits cfg model verbose (b + 1) none (stMeasure st) st le_rfl (by omega)
      with h | h
    · exact h
    · exact absurd h (by simp [stopAfter])

set_option maxRecDepth 10000 in
/-- C3 (counterexample): two concrete runs against the claimed
stopping rule.  First, with verbose false, a budget of 0 and batch
size 1 the small-region fill processes 3 positions (all of its
frontier) instead of stopping within 0 + 1 - 1 = 0: the moves counter
is incremented only under verbose, so the budget never fires.  Second,
even with verbose true, a budget of 1 and batch size 3 the test-region
fill processes 4 positions, exceeding the claimed cap of
1 + 3 - 1 = 3: the loop re-enters whenever moves is at most the
budget, so the overshoot can reach a full batch. -/
theorem c3_budget_counterexample :
    ((fillRun testCfg onesModel false 1 (some 0) 20 smallRegion).reg.processed = 3 ∧
      0 + 1 - 1 < 3) ∧
    ((fillRun testCfg onesModel true 3 (some 1) 40 testRegion).reg.processed = 4 ∧
      1 + 3 - 1 < 4) := by
  exact ⟨⟨by decide, by decide⟩, ⟨by decide, by decide⟩⟩

/-- C3 (amended): when verbose is true the loop stops at the first
batch boundary at which the cumulative moves exceed the budget, so the
number of processed positions overshoots the budget by at most
batch_size (not batch_size - 1); when verbose is false the moves
counter is never incremented, the budget check can never fire, and the
fill behaves exactly as a budget-free fill. -/
theorem c3_amended_budget (cfg : Config) (model : Block → Vec3 → ℚ)
    (batch m fuel : ℕ) (r : DenseRegion) :
    (fillRun cfg model true batch (some m) fuel r).reg.processed ≤
        r.processed + m + batch ∧
    fillRun cfg model false batch (some m) fuel r =
      fillRun cfg model false batch none fuel r := by
  constructor
  · have hb := fillLoop_moves_bound cfg model batch m fuel { reg := r, moves := 0 }
      (Nat.zero_le m)
    have hp := fillLoop_moves_processed cfg model batch (some m) fuel
      { reg := r, moves := 0 }
    dsimp only at hp
    unfold fillRun
    omega
  · exact fillLoop_verbose_false_budget_free cfg model batch m fuel
      { reg := r, moves := 0 } rfl

set_option maxRecDepth 10000 in
/-- C4 (counterexample): in the full traversal of the small region the
seed (2,2,3) is enqueued twice: once at construction (which does not
add it to the visited set) and once again as a qualifying neighbour of
(2,2,2). -/
theorem c4_seed_enqueued_twice_counterexample :
    smallRegion.seed_pos = (2, 2, 3) ∧
    (fillRun testCfg onesModel false 1 none 20 smallRegion).reg.enq_log.count
      (2, 2, 3) = 2 := by
  exact ⟨by decide, by decide⟩

/-- A freshly constructed region satisfies the enqueue-log invariant:
the log is exactly the seed entry and the visited set is empty. -/
theorem mkDenseRegion_EnqInv (cfg : Config) (image : Vec3 → ℚ) (bounds : Vec3)
    (target : Option (Vec3 → ℚ)) (seedOpt : Option Vec3)
    (maskOpt : Option (Vec3 → Option ℚ)) :
    EnqInv (mkDenseRegion cfg image bounds target seedOpt maskOpt) := by
  intro p
  unfold mkDenseRegion
  dsimp only
  simp only [List.count_cons, List.count_nil, List.not_mem_nil, beq_iff_eq, if_false]
  by_cases hp : p = (seedOpt.getD
      (vfdiv (vox_to_pos cfg.moveDelta bounds - (1, 1, 1)) 2 + (1, 1, 1)))
  · simp [hp]
  · have h1 : ¬(seedOpt.getD
        (vfdiv (vox_to_pos cfg.moveDelta bounds - (1, 1, 1)) 2 + (1, 1, 1)) = p) :=
      fun h => hp h.symm
    rw [if_neg h1, if_neg hp]

/-- C4 (amended): across a whole fill of a freshly constructed region,
every position other than the seed is enqueued at most once and the
seed at most twice (its construction-time enqueue does not mark it
visited, so one later neighbour enqueue may repeat it); every logged
position other than the seed has been marked visited at enqueue time;
and the visited set of any fill state only grows across the loop. -/
theorem c4_amended_enqueue_discipline (cfg : Config) (model : Block → Vec3 → ℚ)
    (verbose : Bool) (batch : ℕ) (maxM : Option ℕ) (fuel : ℕ)
    (image : Vec3 → ℚ) (bounds : Vec3) (target : Option (Vec3 → ℚ))
    (seedOpt : Option Vec3) (maskOpt : Option (Vec3 → Option ℚ)) (st : FillSt) :
    (∀ p : Vec3,
      (fillRun cfg model verbose batch maxM fuel
          (mkDenseRegion cfg image bounds target seedOpt maskOpt)).reg.enq_log.count p ≤
        (if p = (mkDenseRegion cfg image bounds target seedOpt maskOpt).seed_pos
          then 2 else 1)) ∧
    (∀ p : Vec3,
      p ∈ (fillRun cfg model verbose batch maxM fuel
          (mkDenseRegion cfg image bounds target seedOpt maskOpt)).reg.enq_log →
        p = (mkDenseRegion cfg image bounds target seedOpt maskOpt).seed_pos ∨
        p ∈ (fillRun cfg model verbose batch maxM fuel
          (mkDenseRegion cfg image bounds target seedOpt maskOpt)).reg.visited) ∧
    st.reg.visited ⊆ (fillLoop cfg model verbose batch maxM fuel st).reg.visited := by
  obtain ⟨ivis, iinv, iseed⟩ := fillLoop_invariants cfg model verbose batch maxM fuel
    { reg := mkDenseRegion cfg image bounds target seedOpt maskOpt, moves := 0 }
  have hinv : EnqInv (fillRun cfg model verbose batch maxM fuel
      (mkDenseRegion cfg image bounds target seedOpt maskOpt)).reg :=
    iinv (mkDenseRegion_EnqInv cfg image bounds target seedOpt maskOpt)
  have hseed : (fillRun cfg model verbose batch maxM fuel
      (mkDenseRegion cfg image bounds target seedOpt maskOpt)).reg.seed_pos =
      (mkDenseRegion cfg image bounds target seedOpt maskOpt).seed_pos := iseed
  refine ⟨?_, ?_, (fillLoop_invariants cfg model verbose batch maxM fuel st).1⟩
  · intro p
    have h := hinv p
    rw [hseed] at h
    by_cases hp : p = (mkDenseRegion cfg image bounds target seedOpt maskOpt).seed_pos
    · rw [if_pos hp]
      rw [if_pos hp] at h
      split_ifs at h <;> omega
    · rw [if_neg hp]
      rw [if_neg hp] at h
      split_ifs at h <;> omega
  · intro p hmem
    have h := hinv p
    rw [hseed] at h
    have hpos : 0 < (fillRun cfg model verbose batch maxM fuel
        (mkDenseRegion cfg image bounds target seedOpt maskOpt)).reg.enq_log.count p :=
      List.count_pos_iff.mpr hmem
    by_cases hp : p = (mkDenseRegion cfg image bounds target seedOpt maskOpt).seed_pos
    · exact Or.inl hp
    · right
      rw [if_neg hp] at h
      by_cases hv : p ∈ (fillRun cfg model verbose batch maxM fuel
          (mkDenseRegion cfg image bounds target seedOpt maskOpt)).reg.visited
      · exact hv
      · rw [if_neg hv] at h
        omega

set_option maxRecDepth 10000 in
/-- C4 witness: concrete application of the amended discipline: the
seed of the small region is in the final log, and the theorem places
it in the seed-or-visited alternative. -/
theorem c4_amended_witness :
    (((2 : ℤ), (2 : ℤ), (3 : ℤ)) : Vec3) ∈
      (fillRun testCfg onesModel false 1 none 20
        (mkDenseRegion testCfg zeroImage (4, 4, 5) none none none)).reg.enq_log ∧
    ((((2 : ℤ), (2 : ℤ), (3 : ℤ)) : Vec3) =
        (mkDenseRegion testCfg zeroImage (4, 4, 5) none none none).seed_pos ∨
      (((2 : ℤ), (2 : ℤ), (3 : ℤ)) : Vec3) ∈
        (fillRun testCfg onesModel false 1 none 20
          (mkDenseRegion testCfg zeroImage (4, 4, 5) none none none)).reg.visited) :=
  ⟨by decide,
    (c4_amended_enqueue_discipline testCfg onesModel false 1 none 20 zeroImage
      (4, 4, 5) none none none
      { reg := mkDenseRegion testCfg zeroImage (4, 4, 5) none none none, moves := 0 }).2.1
      (2, 2, 3) (by decide)⟩

end Diluvian
